import Mathlib

/-!
Shallow embedding of the concurrent fetch-orchestration core of
`server.go`: the result cache (backed by go-cache), the per-URL fetcher
(`getResponseFromURL` / `makeGetRequestForURL`), the orchestrator
(`processURLs`) and the merge-reducer (`processFinalResult`).

Modelling choices:
* Time is an abstract `Nat` tick count (Go nanoseconds); a single `now`
  is threaded through one request.
* The cache stores Go `interface\x7b\x7d` values; since the program only ever
  inserts `[]int`, the value type is an inductive with an `intList`
  constructor plus an `other` constructor standing for any foreign type
  (used by the type assertion `val.([]int)` in `getResultFromCache`).
* The network environment of one fetch is an inductive `FetchEnv` with one
  constructor per branch of `makeGetRequestForURL`: request construction
  failure (`http.NewRequestWithContext` error), transport failure
  (`client.Do` error, which also covers the deadline elapsing mid-flight),
  an undecodable body (`json.Decode` error), and success with a decoded
  number list.
* A fetch returns a `FetchStep`: the list of messages it sent on the
  channel, the cache state after it ran, and how many network calls it
  issued (`client.Do` invocations).  Goroutine interleaving is modelled by
  running the fetchers in sequence and separately proving the reducer is
  order-independent; the delete/add interleaving inside `updateCache` is
  modelled explicitly by `updateCacheSteps`.
-/

/-- Go durations, in nanoseconds (`500 * time.Millisecond`). -/
def timeoutServer : Nat := 500000000

/-- `400 * time.Millisecond`. -/
def timeoutGetReq : Nat := 400000000

/-- `10 * time.Minute`. -/
def cacheExpiration : Nat := 600000000000

/-- A value stored in the go-cache store (`interface\x7b\x7d` in Go).  The server
only ever inserts `[]int`; `other` stands for a value of any other type. -/
inductive GoValue where
  | intList (ns : List Int)
  | other
deriving DecidableEq, Repr

/-- One go-cache item: key, stored value and absolute expiration tick. -/
structure CacheEntry where
  key : String
  val : GoValue
  exp : Nat
deriving DecidableEq, Repr

/-- The cache contents (`serverCache`), as an association list. -/
abbrev CacheState := List CacheEntry

/-- go-cache `Cache.Get`: the stored value, or `none` on a miss or when the
item has expired (`time.Now().UnixNano() > item.Expiration`). -/
def cacheGet (st : CacheState) (now : Nat) (k : String) : Option GoValue :=
  match st.find? (fun e => e.key == k) with
  | none => none
  | some e => if now > e.exp then none else some e.val

/-- go-cache `Cache.Delete`: removes the item with the given key. -/
def cacheDelete (st : CacheState) (k : String) : CacheState :=
  st.filter (fun e => !(e.key == k))

/-- go-cache `c.set`: stores the value under the key, replacing any
existing item, with the given absolute expiration tick. -/
def cacheSet (st : CacheState) (k : String) (v : GoValue) (exp : Nat) : CacheState :=
  ⟨k, v, exp⟩ :: cacheDelete st k

/-- go-cache `Cache.Add`: stores the value only if no unexpired item exists
for the key (otherwise it returns an error, which `updateCache` ignores). -/
def cacheAdd (st : CacheState) (now : Nat) (k : String) (v : GoValue) (ttl : Nat) : CacheState :=
  match cacheGet st now k with
  | some _ => st
  | none => cacheSet st k v (now + ttl)

/-- `getResultFromCache`: `Get` then the two-valued type assertion
`data, _ = val.([]int)`; a miss, an expired item or a failed assertion all
leave `data` as the zero value (the empty list). -/
def getResultFromCache (st : CacheState) (now : Nat) (url : String) : List Int :=
  match cacheGet st now url with
  | some (GoValue.intList ns) => ns
  | some GoValue.other => []
  | none => []

/-- `updateCache`: `serverCache.Delete(url)` then
`serverCache.Add(url, numbers, cacheExpiration)`. -/
def updateCache (st : CacheState) (now : Nat) (url : String) (numbers : List Int) : CacheState :=
  cacheAdd (cacheDelete st url) now url (GoValue.intList numbers) cacheExpiration

/-- The two atomic go-cache operations that make up one `updateCache` call,
in program order.  Each element is one critical section of the store's
mutex; a concurrent reader can be scheduled before, between, or after
them. -/
def updateCacheSteps (now : Nat) (url : String) (numbers : List Int) :
    List (CacheState → CacheState) :=
  [fun st => cacheDelete st url,
   fun st => cacheAdd st now url (GoValue.intList numbers) cacheExpiration]

/-- What a concurrent `getResultFromCache url` reader observes at each of
the three schedule points around an `updateCache url numbers` write:
before the delete, between the delete and the add, and after the add. -/
def observationsDuringUpdate (st : CacheState) (now : Nat) (url : String) (numbers : List Int) :
    List (List Int) :=
  ((updateCacheSteps now url numbers).scanl (fun s f => f s) st).map
    (fun s => getResultFromCache s now url)

/-- The decoded response body `payload` (`\x7bnumbers: [int]\x7d`). -/
structure payload where
  numbers : List Int
deriving DecidableEq, Repr

/-- The `result` struct sent on the orchestrator's channel. -/
structure result where
  data : payload
deriving DecidableEq, Repr

/-- The network environment one fetch runs against: which branch of
`makeGetRequestForURL` its URL takes on this request. -/
inductive FetchEnv where
  | reqErr
  | doErr
  | decodeErr
  | ok (numbers : List Int)
deriving DecidableEq, Repr

/-- Whether this environment makes the fetch fail (any branch other than a
successful, decodable response). -/
def FetchEnv.isFailure : FetchEnv → Bool
  | FetchEnv.ok _ => false
  | _ => true

/-- The visible effects of running one fetcher goroutine: the messages it
sent on the channel, the cache state it left behind, and the number of
network calls (`client.Do`) it issued. -/
structure FetchStep where
  emitted : List result
  cache : CacheState
  netCalls : Nat
deriving DecidableEq, Repr

/-- `makeGetRequestForURL`: on a request-construction error, a transport
error or a decode error it sends the cached result; on success it sends
the decoded numbers, updating the cache first when they are non-empty. -/
def makeGetRequestForURL (env : FetchEnv) (st : CacheState) (url : String) (now : Nat) :
    FetchStep :=
  match env with
  | FetchEnv.reqErr => ⟨[⟨⟨getResultFromCache st now url⟩⟩], st, 0⟩
  | FetchEnv.doErr => ⟨[⟨⟨getResultFromCache st now url⟩⟩], st, 1⟩
  | FetchEnv.decodeErr => ⟨[⟨⟨getResultFromCache st now url⟩⟩], st, 1⟩
  | FetchEnv.ok numbers =>
      if numbers.length > 0 then
        ⟨[⟨⟨numbers⟩⟩], updateCache st now url numbers, 1⟩
      else
        ⟨[⟨⟨numbers⟩⟩], st, 1⟩

/-- `getResponseFromURL`: the `select` on `ctx.Done()` — if the shared
deadline has already elapsed (`done = true`) it sends the cached result
without any network call, otherwise it runs `makeGetRequestForURL`. -/
def getResponseFromURL (done : Bool) (env : FetchEnv) (st : CacheState) (url : String)
    (now : Nat) : FetchStep :=
  if done then ⟨[⟨⟨getResultFromCache st now url⟩⟩], st, 0⟩
  else makeGetRequestForURL env st url now

/-- `processURLs`: starts one fetch per URL and collects exactly
`len(urls)` results from the channel.  `done u` says whether the shared
deadline had elapsed when the goroutine for `u` ran; `env u` is the
network environment of `u`. -/
def processURLs (done : String → Bool) (env : String → FetchEnv) (st : CacheState) (now : Nat) :
    List String → FetchStep
  | [] => ⟨[], st, 0⟩
  | u :: rest =>
      let s := getResponseFromURL (done u) (env u) st u now
      let r := processURLs done env s.cache now rest
      ⟨s.emitted ++ r.emitted, r.cache, s.netCalls + r.netCalls⟩

/-- One step of the dedup loop body of `processFinalResult`: the pair is
(keys of the `uniqueNumbers` map, the `uniqueNumbersSlice` accumulator);
a number is appended only when it is not yet in the map. -/
def addUnique (st : List Int × List Int) (num : Int) : List Int × List Int :=
  if num ∈ st.1 then st else (num :: st.1, st.2 ++ [num])

/-- The outer loop body of `processFinalResult`: fold the dedup step over
the numbers of one `result`. -/
def collectStep (st : List Int × List Int) (r : result) : List Int × List Int :=
  r.data.numbers.foldl addUnique st

/-- `processFinalResult`: dedup all numbers (first occurrence wins), then
`sort.Ints` the unique slice ascending. -/
def processFinalResult (res : List result) : List Int :=
  List.insertionSort (fun a b => a ≤ b) (res.foldl collectStep ([], [])).2

/-! ### Cache lemmas -/

lemma find?_cacheDelete (st : CacheState) (k : String) :
    (cacheDelete st k).find? (fun e => e.key == k) = none := by
  refine List.find?_eq_none.mpr ?_
  intro x hx
  have hx2 := (List.mem_filter.mp hx).2
  simpa using hx2

lemma cacheGet_cacheDelete (st : CacheState) (now : Nat) (k : String) :
    cacheGet (cacheDelete st k) now k = none := by
  unfold cacheGet
  rw [find?_cacheDelete]

lemma cacheGet_cacheSet_self (st : CacheState) (k : String) (v : GoValue) (e now : Nat) :
    cacheGet (cacheSet st k v e) now k = if now > e then none else some v := by
  unfold cacheGet cacheSet
  rw [List.find?_cons_of_pos _ (by simp)]

lemma updateCache_eq (st : CacheState) (t : Nat) (k : String) (ns : List Int) :
    updateCache st t k ns =
      ⟨k, GoValue.intList ns, t + cacheExpiration⟩ :: cacheDelete (cacheDelete st k) k := by
  unfold updateCache cacheAdd
  rw [cacheGet_cacheDelete]
  rfl

lemma cacheGet_updateCache_self (st : CacheState) (t now : Nat) (k : String) (ns : List Int) :
    cacheGet (updateCache st t k ns) now k =
      if now > t + cacheExpiration then none else some (GoValue.intList ns) := by
  rw [updateCache_eq]
  unfold cacheGet
  rw [List.find?_cons_of_pos _ (by simp)]

lemma getResultFromCache_updateCache_self (st : CacheState) (t now : Nat) (k : String)
    (ns : List Int) (h : now ≤ t + cacheExpiration) :
    getResultFromCache (updateCache st t k ns) now k = ns := by
  unfold getResultFromCache
  rw [cacheGet_updateCache_self, if_neg (by omega)]

lemma getResultFromCache_cacheDelete (st : CacheState) (now : Nat) (k : String) :
    getResultFromCache (cacheDelete st k) now k = [] := by
  unfold getResultFromCache
  rw [cacheGet_cacheDelete]

/-! ### Claim theorems on the cache -/

/-- C6: a cache put fully replaces the existing entry for the source (no
merge) and resets its TTL: after `put(S,[1,5])` at `t1` then `put(S,[2])`
at `t2`, `get(S)` at any unexpired time returns exactly `[2]`, and the
stored entry carries the fresh expiration `t2 + cacheExpiration`. -/
theorem cache_put_replaces (st : CacheState) (t1 t2 now : Nat) (S : String)
    (h : now ≤ t2 + cacheExpiration) :
    getResultFromCache (updateCache (updateCache st t1 S [1, 5]) t2 S [2]) now S = [2] ∧
    ∃ rest, updateCache (updateCache st t1 S [1, 5]) t2 S [2] =
      ⟨S, GoValue.intList [2], t2 + cacheExpiration⟩ :: rest :=
  ⟨getResultFromCache_updateCache_self _ _ _ _ _ h, _, updateCache_eq _ _ _ _⟩

/-- Witness for C6 at a concrete state and concrete times. -/
theorem cache_put_replaces_witness :
    (0 : Nat) ≤ 0 + cacheExpiration ∧
    (getResultFromCache (updateCache (updateCache [] 0 "s" [1, 5]) 0 "s" [2]) 0 "s" = [2] ∧
    ∃ rest, updateCache (updateCache [] 0 "s" [1, 5]) 0 "s" [2] =
      ⟨"s", GoValue.intList [2], 0 + cacheExpiration⟩ :: rest) :=
  ⟨Nat.zero_le _, cache_put_replaces [] 0 0 0 "s" (Nat.zero_le _)⟩

/-- C9 counterexample: the overwrite performed by `updateCache` is not a
single atomic replacement.  With the entry `("s", [1])` present, a reader
scheduled between the `Delete` and the `Add` observes `[]` — the
intermediate state — which differs from the pre-write value `[1]` and the
post-write value `[2]` (`observationsDuringUpdate` lists the reader's view
at the three schedule points around the write). -/
theorem cache_overwrite_not_atomic_cex :
    observationsDuringUpdate [⟨"s", GoValue.intList [1], 10⟩] 0 "s" [2] = [[1], [], [2]] ∧
    ([] : List Int) ≠ [1] ∧ ([] : List Int) ≠ [2] := by decide

/-- C9 amended: each go-cache primitive is atomic and a reader always
observes a complete value — the old entry's full value before the write,
the new full value after it, never a partial or merged entry — but the
overwrite consists of two atomic steps (`Delete`, then `Add`), so a reader
scheduled between them observes a cache miss (the empty list). -/
theorem cache_overwrite_observations (st : CacheState) (now : Nat) (url : String)
    (ns : List Int) :
    observationsDuringUpdate st now url ns = [getResultFromCache st now url, [], ns] := by
  have h1 : getResultFromCache (cacheDelete st url) now url = [] :=
    getResultFromCache_cacheDelete _ _ _
  have h2 : getResultFromCache (updateCache st now url ns) now url = ns :=
    getResultFromCache_updateCache_self st now now url ns (Nat.le_add_right _ _)
  show [getResultFromCache st now url,
        getResultFromCache (cacheDelete st url) now url,
        getResultFromCache (updateCache st now url ns) now url] =
      [getResultFromCache st now url, [], ns]
  rw [h1, h2]

/-- C10: `getResultFromCache` is total: it returns the empty list on a
cache miss, and when the stored value is not of type `[]int` the failed
type assertion is ignored and the empty list is returned (no panic). -/
theorem getResultFromCache_total (st : CacheState) (now : Nat) (url : String) (e : Nat) :
    (cacheGet st now url = none → getResultFromCache st now url = []) ∧
    getResultFromCache (cacheSet st url GoValue.other e) now url = [] := by
  constructor
  · intro h
    unfold getResultFromCache
    rw [h]
  · unfold getResultFromCache
    rw [cacheGet_cacheSet_self]
    by_cases h : now > e
    · simp [h]
    · simp [h]

/-- Witness for C10 on the empty cache and on a cache holding a foreign
value. -/
theorem getResultFromCache_total_witness :
    cacheGet [] 0 "u" = none ∧ getResultFromCache [] 0 "u" = [] ∧
    getResultFromCache (cacheSet [] "u" GoValue.other 5) 0 "u" = [] :=
  ⟨rfl, (getResultFromCache_total [] 0 "u" 5).1 rfl, (getResultFromCache_total [] 0 "u" 5).2⟩

/-! ### Claim theorems on the fetcher -/

/-- C5: a fetch that succeeds with an empty decoded list sends the empty
list on the channel and leaves the whole cache state — the entry for this
source and every other entry — exactly as it was, with no network
accounting beyond the one call made. -/
theorem fetch_empty_success_cache_untouched (st : CacheState) (url : String) (now : Nat) :
    makeGetRequestForURL (FetchEnv.ok []) st url now = ⟨[⟨⟨[]⟩⟩], st, 1⟩ := by
  simp [makeGetRequestForURL]

/-- C3: in every branch of `makeGetRequestForURL` — request construction
failure, transport failure (including the deadline elapsing mid-flight),
undecodable body, or success — exactly one result is sent on the channel,
and every failure branch sends the cache-fallback value; the function is
total, so no error is ever propagated to the caller. -/
theorem fetch_failure_converted (env : FetchEnv) (st : CacheState) (url : String) (now : Nat) :
    (makeGetRequestForURL env st url now).emitted.length = 1 ∧
    (env.isFailure = true →
      (makeGetRequestForURL env st url now).emitted = [⟨⟨getResultFromCache st now url⟩⟩]) := by
  cases env <;> simp [makeGetRequestForURL, FetchEnv.isFailure]
  split <;> simp

/-- Witness for C3 at the transport-failure branch on the empty cache. -/
theorem fetch_failure_converted_witness :
    FetchEnv.isFailure FetchEnv.doErr = true ∧
    (makeGetRequestForURL FetchEnv.doErr [] "u" 0).emitted.length = 1 ∧
    (makeGetRequestForURL FetchEnv.doErr [] "u" 0).emitted = [⟨⟨getResultFromCache [] 0 "u"⟩⟩] :=
  ⟨rfl, (fetch_failure_converted FetchEnv.doErr [] "u" 0).1,
    (fetch_failure_converted FetchEnv.doErr [] "u" 0).2 rfl⟩

/-! ### Reducer lemmas -/

lemma addUnique_fold_spec (ns : List Int) : ∀ st : List Int × List Int,
    st.2.Nodup → (∀ n, n ∈ st.1 ↔ n ∈ st.2) →
    (ns.foldl addUnique st).2.Nodup ∧
    (∀ n, n ∈ (ns.foldl addUnique st).1 ↔ n ∈ (ns.foldl addUnique st).2) ∧
    (∀ n, n ∈ (ns.foldl addUnique st).2 ↔ n ∈ st.2 ∨ n ∈ ns) := by
  induction ns with
  | nil =>
      intro st h1 h2
      exact ⟨h1, h2, by simp⟩
  | cons a ns ih =>
      intro st h1 h2
      rw [List.foldl_cons]
      by_cases ha : a ∈ st.1
      · have hst : addUnique st a = st := by simp [addUnique, ha]
        rw [hst]
        obtain ⟨g1, g2, g3⟩ := ih st h1 h2
        refine ⟨g1, g2, fun n => ?_⟩
        rw [g3 n]
        have haa : a ∈ st.2 := (h2 a).mp ha
        constructor
        · rintro (h | h)
          · exact Or.inl h
          · exact Or.inr (List.mem_cons_of_mem _ h)
        · rintro (h | h)
          · exact Or.inl h
          · rcases List.mem_cons.mp h with rfl | h
            · exact Or.inl haa
            · exact Or.inr h
      · have hst : addUnique st a = (a :: st.1, st.2 ++ [a]) := by simp [addUnique, ha]
        rw [hst]
        have hna : a ∉ st.2 := fun h => ha ((h2 a).mpr h)
        have h1' : (st.2 ++ [a]).Nodup := by
          simp [List.nodup_append, h1, hna]
        have h2' : ∀ n, n ∈ a :: st.1 ↔ n ∈ st.2 ++ [a] := by
          intro n
          simp only [List.mem_cons, List.mem_append, List.mem_singleton, h2 n]
          tauto
        obtain ⟨g1, g2, g3⟩ := ih (a :: st.1, st.2 ++ [a]) h1' h2'
        refine ⟨g1, g2, fun n => ?_⟩
        rw [g3 n]
        simp only [List.mem_append, List.mem_singleton, List.mem_cons]
        tauto

lemma collect_fold_spec (res : List result) : ∀ st : List Int × List Int,
    st.2.Nodup → (∀ n, n ∈ st.1 ↔ n ∈ st.2) →
    (res.foldl collectStep st).2.Nodup ∧
    (∀ n, n ∈ (res.foldl collectStep st).1 ↔ n ∈ (res.foldl collectStep st).2) ∧
    (∀ n, n ∈ (res.foldl collectStep st).2 ↔
      n ∈ st.2 ∨ ∃ r ∈ res, n ∈ r.data.numbers) := by
  induction res with
  | nil =>
      intro st h1 h2
      exact ⟨h1, h2, by simp⟩
  | cons r res ih =>
      intro st h1 h2
      rw [List.foldl_cons]
      have hc : collectStep st r = r.data.numbers.foldl addUnique st := rfl
      obtain ⟨a1, a2, a3⟩ := addUnique_fold_spec r.data.numbers st h1 h2
      rw [hc]
      obtain ⟨g1, g2, g3⟩ := ih (r.data.numbers.foldl addUnique st) a1 a2
      refine ⟨g1, g2, fun n => ?_⟩
      rw [g3 n, a3 n]
      simp only [List.mem_cons]
      constructor
      · rintro ((h | h) | ⟨r', hr', hn'⟩)
        · exact Or.inl h
        · exact Or.inr ⟨r, Or.inl rfl, h⟩
        · exact Or.inr ⟨r', Or.inr hr', hn'⟩
      · rintro (h | ⟨r', hr' | hr', hn'⟩)
        · exact Or.inl (Or.inl h)
        · exact Or.inl (Or.inr (hr' ▸ hn'))
        · exact Or.inr ⟨r', hr', hn'⟩

lemma uniqueSlice_nodup (res : List result) : (res.foldl collectStep ([], [])).2.Nodup :=
  (collect_fold_spec res ([], []) (by simp) (by simp)).1

lemma mem_uniqueSlice (res : List result) (n : Int) :
    n ∈ (res.foldl collectStep ([], [])).2 ↔ ∃ r ∈ res, n ∈ r.data.numbers := by
  have h := (collect_fold_spec res ([], []) (by simp) (by simp)).2.2 n
  simpa using h

lemma processFinalResult_sorted_le (res : List result) :
    List.Sorted (fun a b : Int => a ≤ b) (processFinalResult res) :=
  List.sorted_insertionSort _ _

lemma processFinalResult_nodup (res : List result) : (processFinalResult res).Nodup :=
  ((List.perm_insertionSort (fun a b : Int => a ≤ b) _).symm.nodup (uniqueSlice_nodup res))

lemma mem_processFinalResult (res : List result) (n : Int) :
    n ∈ processFinalResult res ↔ ∃ r ∈ res, n ∈ r.data.numbers := by
  unfold processFinalResult
  rw [(List.perm_insertionSort (fun a b : Int => a ≤ b) _).mem_iff]
  exact mem_uniqueSlice res n

lemma processFinalResult_eq_nil_of_all_empty (res : List result)
    (h : ∀ r ∈ res, r.data.numbers = []) : processFinalResult res = [] := by
  rw [List.eq_nil_iff_forall_not_mem]
  intro n hn
  rw [mem_processFinalResult] at hn
  obtain ⟨r, hr, hnr⟩ := hn
  rw [h r hr] at hnr
  exact absurd hnr (List.not_mem_nil n)

/-! ### Claim theorems on the reducer -/

/-- C2: `processFinalResult` returns a strictly ascending (hence
duplicate-free) sequence whose elements are exactly the union of the input
number lists; on the inputs `[1,2,7]` and `[1,5]` it returns exactly
`[1,2,5,7]`. -/
theorem aggregate_sorted_dedup_union (res : List result) :
    List.Sorted (fun a b : Int => a < b) (processFinalResult res) ∧
    (∀ n : Int, n ∈ processFinalResult res ↔ ∃ r ∈ res, n ∈ r.data.numbers) ∧
    processFinalResult [⟨⟨[1, 2, 7]⟩⟩, ⟨⟨[1, 5]⟩⟩] = [1, 2, 5, 7] :=
  ⟨(processFinalResult_sorted_le res).lt_of_le (processFinalResult_nodup res),
   mem_processFinalResult res, by decide⟩

/-- C8: the reducer's output is invariant under permutation of its input
sequence of outcomes; with a pure reduction this also gives determinism
across repeated calls on identical outcomes. -/
theorem aggregate_perm_invariant (res res' : List result) (h : res.Perm res') :
    processFinalResult res = processFinalResult res' := by
  have hmem : ∀ n : Int, n ∈ processFinalResult res ↔ n ∈ processFinalResult res' := by
    intro n
    rw [mem_processFinalResult, mem_processFinalResult]
    constructor
    · rintro ⟨r, hr, hnr⟩
      exact ⟨r, h.subset hr, hnr⟩
    · rintro ⟨r, hr, hnr⟩
      exact ⟨r, h.symm.subset hr, hnr⟩
  have hperm := List.perm_of_nodup_nodup_toFinset_eq (processFinalResult_nodup res)
    (processFinalResult_nodup res') (List.toFinset.ext hmem)
  exact List.eq_of_perm_of_sorted hperm (processFinalResult_sorted_le res)
    (processFinalResult_sorted_le res')

/-- Witness for C8 at a concrete pair of permuted outcome lists. -/
theorem aggregate_perm_invariant_witness :
    List.Perm [result.mk ⟨[1, 2, 7]⟩, result.mk ⟨[1, 5]⟩]
      [result.mk ⟨[1, 5]⟩, result.mk ⟨[1, 2, 7]⟩] ∧
    processFinalResult [result.mk ⟨[1, 2, 7]⟩, result.mk ⟨[1, 5]⟩] =
      processFinalResult [result.mk ⟨[1, 5]⟩, result.mk ⟨[1, 2, 7]⟩] :=
  ⟨List.Perm.swap _ _ _, aggregate_perm_invariant _ _ (List.Perm.swap _ _ _)⟩

/-! ### Orchestrator lemmas -/

lemma getResponseFromURL_emitted_length (d : Bool) (env : FetchEnv) (st : CacheState)
    (u : String) (now : Nat) : (getResponseFromURL d env st u now).emitted.length = 1 := by
  cases d with
  | true => simp [getResponseFromURL]
  | false =>
      cases env <;> simp [getResponseFromURL, makeGetRequestForURL]
      split <;> simp

lemma processURLs_emitted_length (done : String → Bool) (env : String → FetchEnv) (now : Nat) :
    ∀ (urls : List String) (st : CacheState),
    (processURLs done env st now urls).emitted.length = urls.length := by
  intro urls
  induction urls with
  | nil => intro st; rfl
  | cons u rest ih =>
      intro st
      simp [processURLs, List.length_append, getResponseFromURL_emitted_length, ih]
      omega

lemma fail_step (d : Bool) (env0 : FetchEnv) (st : CacheState) (u : String) (now : Nat)
    (hf : env0.isFailure = true) :
    (getResponseFromURL d env0 st u now).cache = st ∧
    (getResponseFromURL d env0 st u now).emitted = [⟨⟨getResultFromCache st now u⟩⟩] := by
  cases d with
  | true => simp [getResponseFromURL]
  | false => cases env0 <;> simp_all [getResponseFromURL, makeGetRequestForURL, FetchEnv.isFailure]

lemma processURLs_all_fail (done : String → Bool) (env : String → FetchEnv) (st : CacheState)
    (now : Nat) (hfail : ∀ u, (env u).isFailure = true)
    (hcache : ∀ u, getResultFromCache st now u = []) : ∀ urls : List String,
    (processURLs done env st now urls).emitted = List.replicate urls.length ⟨⟨[]⟩⟩ ∧
    (processURLs done env st now urls).cache = st := by
  intro urls
  induction urls with
  | nil => exact ⟨rfl, rfl⟩
  | cons u rest ih =>
      have hstep := fail_step (done u) (env u) st u now (hfail u)
      constructor
      · show (getResponseFromURL (done u) (env u) st u now).emitted ++
            (processURLs done env (getResponseFromURL (done u) (env u) st u now).cache now
              rest).emitted = _
        rw [hstep.1, hstep.2, hcache u, ih.1]
        simp [List.replicate_succ]
      · show (processURLs done env (getResponseFromURL (done u) (env u) st u now).cache now
            rest).cache = st
        rw [hstep.1, ih.2]

/-! ### Claim theorems on the orchestrator -/

/-- C1: for every non-empty list of K sources, `processURLs` collects
exactly K results — one per input URL, regardless of which fetches fail
(the environment and deadline flags are arbitrary), so the caller never
sees a partial result sequence. -/
theorem orchestrator_cardinality (done : String → Bool) (env : String → FetchEnv)
    (st : CacheState) (now : Nat) (urls : List String) (h : urls ≠ []) :
    (processURLs done env st now urls).emitted.length = urls.length :=
  processURLs_emitted_length done env now urls st

/-- Witness for C1 at two URLs, one deadline-elapsed environment. -/
theorem orchestrator_cardinality_witness :
    (["a", "b"] : List String) ≠ [] ∧
    (processURLs (fun _ => false) (fun _ => FetchEnv.doErr) [] 0 ["a", "b"]).emitted.length =
      (["a", "b"] : List String).length :=
  ⟨by decide, orchestrator_cardinality _ _ _ _ _ (by decide)⟩

/-- C4: when the shared deadline has already elapsed (`done = true`) the
fetcher makes no network call (`netCalls = 0`) and resolves with exactly
the cached value, leaving the cache unchanged; concretely, with cached
values `[1,5]` and `[6,9]` for two sources the aggregate is `[1,5,6,9]`. -/
theorem deadline_elapsed_uses_cache :
    (∀ (env : FetchEnv) (st : CacheState) (u : String) (now : Nat),
      getResponseFromURL true env st u now = ⟨[⟨⟨getResultFromCache st now u⟩⟩], st, 0⟩) ∧
    processFinalResult (processURLs (fun _ => true) (fun _ => FetchEnv.reqErr)
      [⟨"a", GoValue.intList [1, 5], 100⟩, ⟨"b", GoValue.intList [6, 9], 100⟩] 0
      ["a", "b"]).emitted = [1, 5, 6, 9] := by
  constructor
  · intro env st u now
    rfl
  · decide

/-- C7: when every source fails (any mix of failure branches) and the
cache yields the empty list for every key, the aggregate is the empty
list — not an error: the whole pipeline is total. -/
theorem all_fail_empty_cache_yields_empty (urls : List String) (done : String → Bool)
    (env : String → FetchEnv) (st : CacheState) (now : Nat)
    (hfail : ∀ u, (env u).isFailure = true)
    (hcache : ∀ u, getResultFromCache st now u = []) :
    processFinalResult (processURLs done env st now urls).emitted = [] := by
  rw [(processURLs_all_fail done env st now hfail hcache urls).1]
  refine processFinalResult_eq_nil_of_all_empty _ ?_
  intro r hr
  rw [List.eq_of_mem_replicate hr]

/-- Witness for C7: two sources, both with transport failures, empty
cache. -/
theorem all_fail_empty_cache_yields_empty_witness :
    processFinalResult (processURLs (fun _ => false) (fun _ => FetchEnv.doErr) [] 0
      ["a", "b"]).emitted = [] :=
  all_fail_empty_cache_yields_empty ["a", "b"] _ _ [] 0 (fun _ => rfl) (fun _ => rfl)
